import Mathlib

/-!
Verification of the generic query-shaping layer (`APIFeatures`) of the NFT
marketplace backend, and of the secrecy middleware of `src/models/nftmodel.js`.

The `APIFeatures` class (`utils/apiFeatures.js`) is exercised by
`getAllNFTs` (`src/unnamed/part_001`) and `getAllPlans`
(`src/controllers/subscriptionController.js`) as
`new APIFeatures(Model.find(), req.query).filter().sort().limitFields().paginate()`
followed by `features.getTotalCount()`.  The implementation file itself is not
part of the source tree, so the Shaper is modelled from the specification text;
each such definition carries a doc comment starting `Modelled from the spec:`.
The middleware of `nftmodel.js` is embedded directly from the source.

Records of the document store are modelled as association lists from field
names to scalar values; a query handle is the explicit data of its filter
constraints, sort keys, projection and pagination window, interpreted over a
list of records by `execQuery`.
-/

namespace ImgSpec

/-- A scalar value stored in a record field or obtained by casting a raw
request-parameter string: an integer, a string, or a boolean. -/
inductive Value where
  | int (i : Int)
  | str (s : String)
  | bool (b : Bool)
deriving DecidableEq

/-- A stored record: an association list from field names to values. -/
abbrev Record := List (String × Value)

/-- Field access on a record (first binding wins). -/
def lookupField (r : Record) (k : String) : Option Value := r.lookup k

/-- A raw request-parameter value: either a plain string, or a nested mapping
of operator names to strings (as produced by `price[gte]=100` style query
strings). -/
inductive PValue where
  | s (v : String)
  | m (ops : List (String × String))
deriving DecidableEq

/-- The Parameter Map: raw caller-supplied request parameters. -/
abbrev ParamMap := List (String × PValue)

/-! ### Character-list string utilities

String iteration primitives of the runtime are byte-position based and do not
reduce inside the kernel, so splitting and numeric parsing are defined over
`String.data`. -/

/-- Comparison of characters by code point. -/
def charLE (a b : Char) : Bool := a.toNat ≤ b.toNat

/-- Lexicographic comparison of character lists. -/
def clistLE : List Char → List Char → Bool
  | [], _ => true
  | _ :: _, [] => false
  | a :: as, b :: bs => if a = b then clistLE as bs else charLE a b

/-- String comparison used for ordering string-valued fields. -/
def strLE (a b : String) : Bool := clistLE a.data b.data

/-- Split a character list on a separator character. -/
def splitChars (sep : Char) : List Char → List (List Char)
  | [] => [[]]
  | c :: cs =>
    let r := splitChars sep cs
    if c = sep then [] :: r
    else
      match r with
      | [] => [[c]]
      | g :: gs => (c :: g) :: gs

/-- Split a string on commas. -/
def splitComma (s : String) : List String :=
  (splitChars ',' s.data).map String.mk

/-- Numeric value of a decimal digit character, if it is one. -/
def charDigit (c : Char) : Option Nat :=
  if '0'.toNat ≤ c.toNat ∧ c.toNat ≤ '9'.toNat then some (c.toNat - '0'.toNat)
  else none

/-- Parse a nonempty all-digit character list as a natural number. -/
def natOfChars (cs : List Char) : Option Nat :=
  match cs with
  | [] => none
  | _ => cs.foldl (fun acc c => acc.bind fun n => (charDigit c).map fun d => n * 10 + d)
      (some 0)

/-- Parse a string as a natural number; `none` on non-numeric input. -/
def parseNat (s : String) : Option Nat := natOfChars s.data

/-- Cast a raw parameter string to a stored value: decimal integers (with an
optional leading minus) become integers, `true`/`false` become booleans, and
everything else stays a string. -/
def parseValue (s : String) : Value :=
  match s.data with
  | '-' :: rest =>
    match natOfChars rest with
    | some n => .int (-(n : Int))
    | none => if s == "true" then .bool true else if s == "false" then .bool false else .str s
  | cs =>
    match natOfChars cs with
    | some n => .int (n : Int)
    | none => if s == "true" then .bool true else if s == "false" then .bool false else .str s

/-! ### Constraints and their satisfaction -/

/-- Same-kind value comparison (weak): `some` of the comparison when both
values have the same kind, `none` otherwise (mixed kinds never satisfy a
range constraint, mirroring type bracketing of the document store). -/
def valLEk : Value → Value → Option Bool
  | .int a, .int b => some (decide (a ≤ b))
  | .str a, .str b => some (clistLE a.data b.data)
  | .bool a, .bool b => some (decide (a ≤ b))
  | _, _ => none

/-- Same-kind value comparison (strict). -/
def valLTk : Value → Value → Option Bool
  | .int a, .int b => some (decide (a < b))
  | .str a, .str b => some (clistLE a.data b.data && !decide (a = b))
  | .bool a, .bool b => some (decide (a < b))
  | _, _ => none

/-- Satisfaction of a single comparison operator (already carrying the `$`
sigil) by a possibly missing field value.  `$ne` also matches a missing
field; the four range operators require a present value of the same kind. -/
def matchOp (op : String) (fv : Option Value) (bound : Value) : Bool :=
  if op == "$ne" then decide (fv ≠ some bound)
  else
    match fv with
    | none => false
    | some v =>
      if op == "$gte" then (valLEk bound v).getD false
      else if op == "$gt" then (valLTk bound v).getD false
      else if op == "$lte" then (valLEk v bound).getD false
      else if op == "$lt" then (valLTk v bound).getD false
      else false

/-- A single query constraint on a field: a direct equality constraint, or a
mapping of sigil-carrying operator names to bound values. -/
inductive Cond where
  | eqV (v : Value)
  | ops (l : List (String × Value))
deriving DecidableEq

/-- Satisfaction of one field constraint by a record. -/
def matchesCond (r : Record) (k : String) : Cond → Bool
  | .eqV v => decide (lookupField r k = some v)
  | .ops l => l.all fun p => matchOp p.1 (lookupField r k) p.2

/-- Satisfaction of a constraint list (conjunction) by a record. -/
def matchesConds (cs : List (String × Cond)) (r : Record) : Bool :=
  cs.all fun p => matchesCond r p.1 p.2

/-! ### Ordering of records for the sort stage -/

/-- Kind rank used to order values of different kinds consistently. -/
def vrank : Value → Nat
  | .int _ => 0
  | .bool _ => 1
  | .str _ => 2

/-- Total comparison of values: same-kind values compare natively, values of
different kinds compare by kind rank. -/
def valLE : Value → Value → Bool
  | .int a, .int b => decide (a ≤ b)
  | .bool a, .bool b => decide (a ≤ b)
  | .str a, .str b => clistLE a.data b.data
  | a, b => decide (vrank a ≤ vrank b)

/-- Comparison of possibly missing field values; a missing value sorts first. -/
def ovalLE : Option Value → Option Value → Bool
  | none, _ => true
  | some _, none => false
  | some a, some b => valLE a b

/-- Multi-key record comparison: keys apply in left-to-right priority, a key
marked `true` compares descending, ties fall through to the next key. -/
def sortLE : List (String × Bool) → Record → Record → Bool
  | [], _, _ => true
  | (k, desc) :: rest, r1, r2 =>
    let a := if desc then lookupField r2 k else lookupField r1 k
    let b := if desc then lookupField r1 k else lookupField r2 k
    if a = b then sortLE rest r1 r2 else ovalLE a b

/-- The sort relation induced by a key list, as a decidable proposition. -/
abbrev sortRel (ks : List (String × Bool)) : Record → Record → Prop :=
  fun r1 r2 => sortLE ks r1 r2 = true

/-! ### The Query Handle and its interpretation -/

/-- Modelled from the spec: the Query Handle — "a collection query not yet
executed" — made explicit as its filter constraints, ordered sort keys,
field projection (`none` meaning the default projection) and pagination
window. -/
structure Query where
  conds : List (String × Cond)
  sortKeys : List (String × Bool)
  fieldsSel : Option (List String)
  skip : Nat
  limitN : Option Nat
deriving DecidableEq

/-- A fresh query handle as produced by `Model.find(baseConds)`: only the
base filter conditions are set. -/
def Query.fresh (conds : List (String × Cond)) : Query :=
  ⟨conds, [], none, 0, none⟩

/-- The identity field of the resource, always included in a projection. -/
def identityField : String := "id"

/-- Modelled from the spec: the internal bookkeeping field excluded from the
projection when no explicit field selection is given. -/
def bookkeepingField : String := "__v"

/-- Projection of a single record: an explicit selection keeps exactly the
selected fields plus the identity field; the default projection drops only
the internal bookkeeping field. -/
def projectRecord (sel : Option (List String)) (r : Record) : Record :=
  match sel with
  | some l => r.filter fun p => decide (p.1 ∈ l) || decide (p.1 = identityField)
  | none => r.filter fun p => decide (p.1 ≠ bookkeepingField)

/-- Interpretation of a query handle over the stored records: filtering, then
sorting, then projection, then the pagination window. -/
def execQuery (q : Query) (db : List Record) : List Record :=
  let fl := db.filter (matchesConds q.conds)
  let st := List.insertionSort (sortRel q.sortKeys) fl
  let pr := st.map (projectRecord q.fieldsSel)
  let dropped := pr.drop q.skip
  match q.limitN with
  | some n => dropped.take n
  | none => dropped

/-! ### The Query Shaper (`APIFeatures`), modelled from the spec -/

/-- The reserved control keys of the Parameter Map. -/
def reservedKeys : List String := ["page", "sort", "limit", "fields"]

/-- The comparison operator names rewritten by the filter stage. -/
def comparisonOps : List String := ["gte", "gt", "lte", "lt"]

/-- Modelled from the spec: Stage 1 first removes the reserved control keys
from a copy of the Parameter Map, leaving only domain filter keys. -/
def removeReserved (params : ParamMap) : ParamMap :=
  params.filter fun p => decide (p.1 ∉ reservedKeys)

/-- Modelled from the spec: rewriting of an operator mapping — each of the
comparison operators `gte`, `gt`, `lte`, `lt` gains the `$` sigil of the store,
and each raw bound string is cast to a value. -/
def sigilize (ops : List (String × String)) : List (String × Value) :=
  ops.map fun p =>
    (if comparisonOps.contains p.1 then "$" ++ p.1 else p.1, parseValue p.2)

/-- Translation of one remaining parameter value into a query constraint:
operator mappings become range constraints, plain values become direct
equality constraints. -/
def condOfPValue : PValue → Cond
  | .s v => .eqV (parseValue v)
  | .m ops => .ops (sigilize ops)

/-- Modelled from the spec: the constraints contributed by the filter stage. -/
def filterConds (params : ParamMap) : List (String × Cond) :=
  (removeReserved params).map fun p => (p.1, condOfPValue p.2)

/-- One sort field: a leading `-` marks descending order. -/
def parseSortField (f : String) : String × Bool :=
  match f.data with
  | '-' :: rest => (String.mk rest, true)
  | _ => (f, false)

/-- Modelled from the spec: the sort keys of Stage 2 — the comma-split `sort`
parameter in left-to-right priority, or the stable default sort by creation
time descending when `sort` is absent. -/
def sortKeysOf (params : ParamMap) : List (String × Bool) :=
  match List.lookup "sort" params with
  | some (.s s) => (splitComma s).map parseSortField
  | _ => [("createdAt", true)]

/-- Modelled from the spec: the field selection of Stage 3 — the comma-split
`fields` parameter, or the default projection when `fields` is absent. -/
def fieldsSelOf (params : ParamMap) : Option (List String) :=
  match List.lookup "fields" params with
  | some (.s s) => some (splitComma s)
  | _ => none

/-- Modelled from the spec: parsing of a pagination parameter as a positive
integer — non-numeric input and values below 1 fall back to the default. -/
def parsePos (v : Option PValue) (dflt : Nat) : Nat :=
  match v with
  | some (.s s) =>
    match parseNat s with
    | some n => if 1 ≤ n then n else dflt
    | none => dflt
  | _ => dflt

/-- The parsed `page` parameter (default 1). -/
def pageOf (params : ParamMap) : Nat := parsePos (List.lookup "page" params) 1

/-- The parsed `limit` parameter (default 100). -/
def limitOf (params : ParamMap) : Nat := parsePos (List.lookup "limit" params) 100

/-- Modelled from the spec: the Query Shaper — it stores the Query Handle and
the Parameter Map for staged transformation. -/
structure APIFeatures where
  query : Query
  queryString : ParamMap

/-- Modelled from the spec: Stage 1 (filter) applies the non-reserved
parameters as constraints on the query. -/
def APIFeatures.filter (af : APIFeatures) : APIFeatures :=
  { af with query := { af.query with conds := af.query.conds ++ filterConds af.queryString } }

/-- Modelled from the spec: Stage 2 (sort) applies the multi-key sort order. -/
def APIFeatures.sort (af : APIFeatures) : APIFeatures :=
  { af with query := { af.query with sortKeys := sortKeysOf af.queryString } }

/-- Modelled from the spec: Stage 3 (field selection) applies the projection. -/
def APIFeatures.limitFields (af : APIFeatures) : APIFeatures :=
  { af with query := { af.query with fieldsSel := fieldsSelOf af.queryString } }

/-- Modelled from the spec: Stage 4 (paginate) applies
`skip = (page - 1) * limit` and the limit to the query. -/
def APIFeatures.paginate (af : APIFeatures) : APIFeatures :=
  let page := pageOf af.queryString
  let lim := limitOf af.queryString
  { af with query := { af.query with skip := (page - 1) * lim, limitN := some lim } }

/-- The full shaping pipeline exactly as invoked by `getAllNFTs` and
`getAllPlans`: construction from a fresh query handle, then
`.filter().sort().limitFields().paginate()`. -/
def shape (conds0 : List (String × Cond)) (params : ParamMap) : APIFeatures :=
  ((((APIFeatures.mk (Query.fresh conds0) params).filter).sort).limitFields).paginate

/-- The Pagination Result returned by `getTotalCount`. -/
structure PaginationResult where
  currentPage : Nat
  totalPages : Nat
  totalResults : Nat
  limit : Nat
deriving DecidableEq

/-- Modelled from the spec: `getTotalCount` re-executes a count against the
filtered, pre-pagination query and derives the number of pages by the
ceiling division `ceil(totalResults / limit)`. -/
def APIFeatures.getTotalCount (af : APIFeatures) (db : List Record) : PaginationResult :=
  let lim := limitOf af.queryString
  let total := (db.filter (matchesConds af.query.conds)).length
  { currentPage := pageOf af.queryString
    totalPages := (total + lim - 1) / lim
    totalResults := total
    limit := lim }

/-! ### List-level stage transformations, written from the words of the spec

These four functions restate the four stages of the spec directly as
transformations of the record list, to be compared with the interpretation
of the shaped Query Handle. -/

/-- Stage 1 of the spec as a record-list transformation: keep the records
satisfying the base conditions and the non-reserved parameter constraints. -/
def specFilterStage (conds0 : List (String × Cond)) (params : ParamMap)
    (db : List Record) : List Record :=
  db.filter (matchesConds (conds0 ++ filterConds params))

/-- Stage 2 of the spec as a record-list transformation: the multi-key sort. -/
def specSortStage (params : ParamMap) (l : List Record) : List Record :=
  List.insertionSort (sortRel (sortKeysOf params)) l

/-- Stage 3 of the spec as a record-list transformation: the projection. -/
def specFieldStage (params : ParamMap) (l : List Record) : List Record :=
  l.map (projectRecord (fieldsSelOf params))

/-- Stage 4 of the spec as a record-list transformation: the pagination
window `skip = (page - 1) * limit` followed by the limit. -/
def specPaginateStage (params : ParamMap) (l : List Record) : List Record :=
  (l.drop ((pageOf params - 1) * limitOf params)).take (limitOf params)

/-! ### The secrecy middleware of `src/models/nftmodel.js` -/

/-- Truthiness of a stored value, after the host language. -/
def truthyVal : Value → Bool
  | .int i => decide (i ≠ 0)
  | .str s => s != ""
  | .bool b => b

/-- Truthiness of a query condition value: an operator object is always
truthy, an equality value is truthy when its scalar is. -/
def condTruthy : Cond → Bool
  | .eqV v => truthyVal v
  | .ops _ => true

/-- Whether the conditions hold a truthy value at a key. -/
def condsTruthyAt (conds : List (String × Cond)) (k : String) : Bool :=
  match List.lookup k conds with
  | some c => condTruthy c
  | none => false

/-- Embeds `nftSchema.pre(/^find/)` of `src/models/nftmodel.js` (lines
252-264): a truthy `showAll` condition is deleted and nothing else changes;
otherwise, unless `isSecret` is truthy in the conditions, the query gains
the constraint `isSecret: { $ne: true }`. -/
def findHook (conds : List (String × Cond)) : List (String × Cond) :=
  if condsTruthyAt conds "showAll" then conds.filter fun p => decide (p.1 ≠ "showAll")
  else if condsTruthyAt conds "isSecret" then conds
  else conds ++ [("isSecret", Cond.ops [("$ne", Value.bool true)])]

/-- Execution of a find query: the records satisfying all conditions. -/
def runFind (conds : List (String × Cond)) (db : List Record) : List Record :=
  db.filter (matchesConds conds)

/-- An aggregation pipeline stage (only the shape needed here: a match stage
with its conditions, or any other stage kind). -/
inductive Stage where
  | matchS (conds : List (String × Cond))
  | groupS (byField : String)
  | sortS (field : String) (desc : Bool)
deriving DecidableEq

/-- The match conditions unshifted by the aggregate hook `nftSchema.pre` of
`src/models/nftmodel.js` (lines 278-287): status not `deleted` and
`isSecret` not `true`. -/
def secretExclusionMatch : List (String × Cond) :=
  [("status", Cond.ops [("$ne", Value.str "deleted")]),
   ("isSecret", Cond.ops [("$ne", Value.bool true)])]

/-- Embeds the aggregate hook `nftSchema.pre`: the exclusion match stage is placed
at the beginning of the pipeline. -/
def aggregateHook (pipeline : List Stage) : List Stage :=
  Stage.matchS secretExclusionMatch :: pipeline

/-- The records a pipeline draws from: when the pipeline begins with a match
stage, only the records satisfying it enter the remaining stages. -/
def pipelineSource (p : List Stage) (db : List Record) : List Record :=
  match p with
  | Stage.matchS c :: _ => db.filter (matchesConds c)
  | _ => db

/-! ### Order lemmas for the sort relation -/

theorem charToNat_inj {a b : Char} (h : a.toNat = b.toNat) : a = b := by
  have := congrArg Char.ofNat h
  rwa [Char.ofNat_toNat, Char.ofNat_toNat] at this

theorem clistLE_refl (l : List Char) : clistLE l l = true := by
  induction l with
  | nil => rfl
  | cons a as ih => simp [clistLE, ih]

theorem clistLE_trans {a b c : List Char} (h1 : clistLE a b = true)
    (h2 : clistLE b c = true) : clistLE a c = true := by
  induction a generalizing b c with
  | nil => rfl
  | cons x xs ih =>
    cases b with
    | nil => simp [clistLE] at h1
    | cons y ys =>
      cases c with
      | nil => simp [clistLE] at h2
      | cons z zs =>
        simp only [clistLE] at h1 h2 ⊢
        by_cases hxy : x = y
        · subst hxy
          by_cases hxz : x = z
          · subst hxz; simp only [if_pos rfl] at h1 h2 ⊢; exact ih h1 h2
          · simp only [if_neg hxz] at h2 ⊢
            simp only [if_pos rfl] at h1
            exact h2
        · by_cases hyz : y = z
          · subst hyz
            simp only [if_neg hxy] at h1 ⊢
            exact h1
          · simp only [if_neg hxy] at h1
            simp only [if_neg hyz] at h2
            by_cases hxz : x = z
            · exfalso
              subst hxz
              simp only [charLE, decide_eq_true_eq] at h1 h2
              exact hxy (charToNat_inj (Nat.le_antisymm h1 h2))
            · simp only [if_neg hxz, charLE, decide_eq_true_eq] at h1 h2 ⊢
              omega

theorem clistLE_total (a b : List Char) : clistLE a b = true ∨ clistLE b a = true := by
  induction a generalizing b with
  | nil => exact Or.inl rfl
  | cons x xs ih =>
    cases b with
    | nil => exact Or.inr rfl
    | cons y ys =>
      simp only [clistLE]
      by_cases hxy : x = y
      · subst hxy; simp only [if_pos rfl]; exact ih ys
      · have hyx : ¬ y = x := fun h => hxy h.symm
        simp only [if_neg hxy, if_neg hyx, charLE, decide_eq_true_eq]
        omega

theorem clistLE_antisymm {a b : List Char} (h1 : clistLE a b = true)
    (h2 : clistLE b a = true) : a = b := by
  induction a generalizing b with
  | nil => cases b with
    | nil => rfl
    | cons y ys => simp [clistLE] at h2
  | cons x xs ih =>
    cases b with
    | nil => simp [clistLE] at h1
    | cons y ys =>
      simp only [clistLE] at h1 h2
      by_cases hxy : x = y
      · subst hxy
        simp only [if_pos rfl] at h1 h2
        rw [ih h1 h2]
      · have hyx : ¬ y = x := fun h => hxy h.symm
        simp only [if_neg hxy] at h1
        simp only [if_neg hyx] at h2
        simp only [charLE, decide_eq_true_eq] at h1 h2
        exact absurd (charToNat_inj (Nat.le_antisymm h1 h2)) hxy

theorem valLE_refl (a : Value) : valLE a a = true := by
  cases a with
  | int i => simp [valLE]
  | str s => simp [valLE, clistLE_refl]
  | bool b => simp [valLE]

theorem valLE_trans {a b c : Value} (h1 : valLE a b = true) (h2 : valLE b c = true) :
    valLE a c = true := by
  cases a <;> cases b <;> cases c <;>
    simp only [valLE, vrank, decide_eq_true_eq] at h1 h2 ⊢ <;>
    first
    | rfl
    | omega
    | exact clistLE_trans h1 h2
    | exact le_trans h1 h2

theorem valLE_total (a b : Value) : valLE a b = true ∨ valLE b a = true := by
  cases a <;> cases b <;>
    simp only [valLE, vrank, decide_eq_true_eq] <;>
    first
    | exact Or.inl rfl
    | omega
    | exact clistLE_total _ _
    | exact le_total _ _

theorem valLE_antisymm {a b : Value} (h1 : valLE a b = true) (h2 : valLE b a = true) :
    a = b := by
  cases a <;> cases b <;>
    simp only [valLE, vrank, decide_eq_true_eq, Value.int.injEq, Value.str.injEq,
      Value.bool.injEq] at h1 h2 ⊢ <;>
    first
    | omega
    | exact le_antisymm h1 h2
    | exact String.ext (clistLE_antisymm h1 h2)

theorem ovalLE_refl (a : Option Value) : ovalLE a a = true := by
  cases a with
  | none => rfl
  | some v => simp [ovalLE, valLE_refl]

theorem ovalLE_trans {a b c : Option Value} (h1 : ovalLE a b = true)
    (h2 : ovalLE b c = true) : ovalLE a c = true := by
  cases a <;> cases b <;> cases c <;> simp_all [ovalLE]
  exact valLE_trans h1 h2

theorem ovalLE_total (a b : Option Value) : ovalLE a b = true ∨ ovalLE b a = true := by
  cases a <;> cases b <;> simp [ovalLE]
  exact valLE_total _ _

theorem ovalLE_antisymm {a b : Option Value} (h1 : ovalLE a b = true)
    (h2 : ovalLE b a = true) : a = b := by
  cases a <;> cases b <;> simp_all [ovalLE]
  exact valLE_antisymm h1 h2

theorem sortLE_refl (ks : List (String × Bool)) (r : Record) : sortLE ks r r = true := by
  induction ks with
  | nil => rfl
  | cons p rest ih =>
    obtain ⟨k, desc⟩ := p
    simp [sortLE, ih]

theorem sortLE_trans {ks : List (String × Bool)} {r1 r2 r3 : Record}
    (h1 : sortLE ks r1 r2 = true) (h2 : sortLE ks r2 r3 = true) :
    sortLE ks r1 r3 = true := by
  induction ks with
  | nil => rfl
  | cons p rest ih =>
    obtain ⟨k, desc⟩ := p
    simp only [sortLE] at h1 h2 ⊢
    cases desc with
    | false =>
      simp only [if_neg, if_pos, Bool.false_eq_true, ite_false] at h1 h2 ⊢
      by_cases e12 : lookupField r1 k = lookupField r2 k
      · by_cases e23 : lookupField r2 k = lookupField r3 k
        · rw [if_pos (e12.trans e23)]
          rw [if_pos e12] at h1
          rw [if_pos e23] at h2
          exact ih h1 h2
        · rw [if_neg e23] at h2
          rw [if_neg (fun h => e23 (e12 ▸ h)), e12]
          exact h2
      · rw [if_neg e12] at h1
        by_cases e23 : lookupField r2 k = lookupField r3 k
        · rw [if_pos e23] at h2
          rw [if_neg (fun h => e12 (h.trans e23.symm)), ← e23]
          exact h1
        · rw [if_neg e23] at h2
          by_cases e13 : lookupField r1 k = lookupField r3 k
          · exact absurd (ovalLE_antisymm h1 (e13 ▸ h2)) e12
          · rw [if_neg e13]
            exact ovalLE_trans h1 h2
    | true =>
      simp only [ite_true] at h1 h2 ⊢
      by_cases e12 : lookupField r2 k = lookupField r1 k
      · by_cases e23 : lookupField r3 k = lookupField r2 k
        · rw [if_pos (e23.trans e12)]
          rw [if_pos e12] at h1
          rw [if_pos e23] at h2
          exact ih h1 h2
        · rw [if_neg e23] at h2
          rw [if_neg (fun h => e23 (h.trans e12.symm)), ← e12]
          exact h2
      · rw [if_neg e12] at h1
        by_cases e23 : lookupField r3 k = lookupField r2 k
        · rw [if_pos e23] at h2
          rw [if_neg (fun h => e12 (e23 ▸ h)), e23]
          exact h1
        · rw [if_neg e23] at h2
          by_cases e13 : lookupField r3 k = lookupField r1 k
          · exact absurd (ovalLE_antisymm h1 (e13 ▸ h2)) e12
          · rw [if_neg e13]
            exact ovalLE_trans h2 h1

theorem sortLE_total (ks : List (String × Bool)) (r1 r2 : Record) :
    sortLE ks r1 r2 = true ∨ sortLE ks r2 r1 = true := by
  induction ks with
  | nil => exact Or.inl rfl
  | cons p rest ih =>
    obtain ⟨k, desc⟩ := p
    simp only [sortLE]
    cases desc with
    | false =>
      simp only [Bool.false_eq_true, ite_false]
      by_cases e : lookupField r1 k = lookupField r2 k
      · rw [if_pos e, if_pos e.symm]
        exact ih
      · rw [if_neg e, if_neg (fun h => e h.symm)]
        exact ovalLE_total _ _
    | true =>
      simp only [ite_true]
      by_cases e : lookupField r2 k = lookupField r1 k
      · rw [if_pos e, if_pos e.symm]
        exact ih
      · rw [if_neg e, if_neg (fun h => e h.symm)]
        exact ovalLE_total _ _

/-! ### Execution lemmas -/

theorem mem_execQuery {q : Query} {db : List Record} {r : Record}
    (h : r ∈ execQuery q db) :
    ∃ s, s ∈ db ∧ matchesConds q.conds s = true ∧ r = projectRecord q.fieldsSel s := by
  unfold execQuery at h
  have h1 : r ∈ (List.insertionSort (sortRel q.sortKeys)
      (db.filter (matchesConds q.conds))).map (projectRecord q.fieldsSel) := by
    cases hl : q.limitN with
    | none =>
      rw [hl] at h
      exact (List.drop_sublist _ _).subset h
    | some n =>
      rw [hl] at h
      exact (List.drop_sublist _ _).subset ((List.take_sublist _ _).subset h)
  obtain ⟨s, hs, hr⟩ := List.mem_map.mp h1
  have hs' : s ∈ db.filter (matchesConds q.conds) :=
    (List.perm_insertionSort (sortRel q.sortKeys) _).mem_iff.mp hs
  obtain ⟨hmem, hcond⟩ := List.mem_filter.mp hs'
  exact ⟨s, hmem, hcond, hr.symm⟩

theorem lookup_filter_of_keep (r : Record) (k : String) (p : String × Value → Bool)
    (hk : ∀ v, p (k, v) = true) :
    List.lookup k (r.filter p) = List.lookup k r := by
  induction r with
  | nil => rfl
  | cons a t ih =>
    obtain ⟨k', v⟩ := a
    by_cases hkk : k = k'
    · subst hkk
      rw [List.filter_cons, hk v]
      simp [List.lookup]
    · have hbeq : (k == k') = false := beq_eq_false_iff_ne.mpr hkk
      rw [List.filter_cons]
      cases hp : p (k', v) with
      | true =>
        simp only [ite_true]
        rw [List.lookup_cons, List.lookup_cons, hbeq]
        exact ih
      | false =>
        simp only [Bool.false_eq_true, ite_false]
        rw [List.lookup_cons, hbeq]
        exact ih

theorem lookup_filter_of_drop (r : Record) (k : String) (p : String × Value → Bool)
    (hk : ∀ v, p (k, v) = false) :
    List.lookup k (r.filter p) = none := by
  induction r with
  | nil => rfl
  | cons a t ih =>
    obtain ⟨k', v⟩ := a
    by_cases hkk : k = k'
    · subst hkk
      rw [List.filter_cons, hk v]
      simpa using ih
    · have hbeq : (k == k') = false := beq_eq_false_iff_ne.mpr hkk
      rw [List.filter_cons]
      cases hp : p (k', v) with
      | true =>
        simp only [ite_true]
        rw [List.lookup_cons, hbeq]
        exact ih
      | false =>
        simpa using ih

theorem lookupField_project_default (r : Record) (k : String)
    (hk : k ≠ bookkeepingField) :
    lookupField (projectRecord none r) k = lookupField r k := by
  unfold lookupField projectRecord
  exact lookup_filter_of_keep r k _ (fun v => decide_eq_true hk)

theorem pairwise_execQuery (q : Query) (db : List Record) (R : Record → Record → Prop)
    (h : ∀ a b, sortLE q.sortKeys a b = true →
      R (projectRecord q.fieldsSel a) (projectRecord q.fieldsSel b)) :
    (execQuery q db).Pairwise R := by
  unfold execQuery
  haveI : IsTotal Record (sortRel q.sortKeys) := ⟨fun a b => sortLE_total q.sortKeys a b⟩
  haveI : IsTrans Record (sortRel q.sortKeys) := ⟨fun _ _ _ => sortLE_trans⟩
  have hs : List.Sorted (sortRel q.sortKeys)
      (List.insertionSort (sortRel q.sortKeys) (db.filter (matchesConds q.conds))) :=
    List.sorted_insertionSort _ _
  have hm : ((List.insertionSort (sortRel q.sortKeys)
      (db.filter (matchesConds q.conds))).map (projectRecord q.fieldsSel)).Pairwise R :=
    List.pairwise_map.mpr (hs.imp fun hab => h _ _ hab)
  have hd := hm.sublist (List.drop_sublist q.skip _)
  cases q.limitN with
  | none => exact hd
  | some n => exact hd.sublist (List.take_sublist _ _)

theorem length_execQuery_unpaginated (q : Query) (db : List Record) :
    (execQuery { q with skip := 0, limitN := none } db).length
      = (db.filter (matchesConds q.conds)).length := by
  unfold execQuery
  simp only [List.drop_zero, List.length_map]
  exact (List.perm_insertionSort _ _).length_eq

/-! ### Auxiliary facts about pagination parsing -/

theorem one_le_parsePos (v : Option PValue) (dflt : Nat) (hd : 1 ≤ dflt) :
    1 ≤ parsePos v dflt := by
  unfold parsePos
  split
  · split
    · split <;> omega
    · exact hd
  · exact hd

theorem one_le_pageOf (params : ParamMap) : 1 ≤ pageOf params :=
  one_le_parsePos _ 1 le_rfl

theorem one_le_limitOf (params : ParamMap) : 1 ≤ limitOf params :=
  one_le_parsePos _ 100 (by omega)

/-! ### Claim theorems -/

/-- C1: `getTotalCount` counts against the filtered, pre-pagination query —
its `totalResults` is the length of the shaped query executed with the
pagination window removed — and it returns
`{currentPage, totalPages, totalResults, limit}` with
`totalPages = ceil(totalResults / limit)`; in particular with
`page=2&limit=10` against 25 matching records it returns
`{currentPage := 2, totalPages := 3, totalResults := 25, limit := 10}`. -/
theorem getTotalCount_correct :
    (∀ (conds0 : List (String × Cond)) (params : ParamMap) (db : List Record),
      ((shape conds0 params).getTotalCount db).currentPage = pageOf params
      ∧ ((shape conds0 params).getTotalCount db).limit = limitOf params
      ∧ ((shape conds0 params).getTotalCount db).totalResults
          = (execQuery { (shape conds0 params).query with skip := 0, limitN := none } db).length
      ∧ ((shape conds0 params).getTotalCount db).totalPages
          = ((shape conds0 params).getTotalCount db).totalResults
              ⌈/⌉ ((shape conds0 params).getTotalCount db).limit)
    ∧ (shape [] [("page", PValue.s "2"), ("limit", PValue.s "10")]).getTotalCount
        ((List.range 25).map fun i => [("price", Value.int i)])
        = ⟨2, 3, 25, 10⟩ := by
  constructor
  · intro conds0 params db
    refine ⟨rfl, rfl, ?_, ?_⟩
    · exact (length_execQuery_unpaginated (shape conds0 params).query db).symm
    · rw [Nat.ceilDiv_eq_add_pred_div]
      rfl
  · decide

/-- C2: the shaped Query Handle reflects application of the four stages in
the fixed order filtering, then sorting, then field selection, then
pagination: its execution coincides with the composition of the four
list-level stage transformations written from the spec, in that order. -/
theorem shaped_query_stage_order (conds0 : List (String × Cond)) (params : ParamMap)
    (db : List Record) :
    execQuery (shape conds0 params).query db =
      specPaginateStage params (specFieldStage params
        (specSortStage params (specFilterStage conds0 params db))) := rfl

/-- C3: the filter stage contributes constraints only for non-reserved keys:
no constraint produced from the parameter map carries the key `page`,
`sort`, `limit` or `fields`. -/
theorem filter_excludes_reserved (params : ParamMap) (k : String) (c : Cond)
    (h : (k, c) ∈ filterConds params) :
    k ≠ "page" ∧ k ≠ "sort" ∧ k ≠ "limit" ∧ k ≠ "fields" := by
  obtain ⟨p, hp, he⟩ := List.mem_map.mp h
  obtain ⟨-, hres⟩ := List.mem_filter.mp hp
  have hk : p.1 = k := congrArg Prod.fst he
  rw [← hk]
  simpa [reservedKeys, not_or] using hres

/-- Witness for C3: a parameter map holding both a reserved key and a domain
key contributes only the domain constraint, whose key is none of the four
reserved names. -/
theorem filter_excludes_reserved_witness :
    ("price", Cond.eqV (Value.int 5)) ∈
        filterConds [("page", PValue.s "2"), ("price", PValue.s "5")]
    ∧ ("price" ≠ "page" ∧ "price" ≠ "sort" ∧ "price" ≠ "limit" ∧ "price" ≠ "fields") :=
  ⟨by decide,
   filter_excludes_reserved [("page", PValue.s "2"), ("price", PValue.s "5")]
     "price" (Cond.eqV (Value.int 5)) (by decide)⟩

/-- C7: the pagination stage parses `page` (default 1) and `limit`
(default 100) as positive integers and applies `skip = (page - 1) * limit`
and the limit to the query; when both parameters are absent the skip is 0
and the limit is 100. -/
theorem paginate_skip_limit (conds0 : List (String × Cond)) (params : ParamMap) :
    (shape conds0 params).query.skip = (pageOf params - 1) * limitOf params
    ∧ (shape conds0 params).query.limitN = some (limitOf params)
    ∧ 1 ≤ pageOf params ∧ 1 ≤ limitOf params
    ∧ (List.lookup "page" params = none → List.lookup "limit" params = none →
        (shape conds0 params).query.skip = 0
        ∧ (shape conds0 params).query.limitN = some 100) := by
  refine ⟨rfl, rfl, one_le_pageOf params, one_le_limitOf params, ?_⟩
  intro hp hl
  constructor
  · show (pageOf params - 1) * limitOf params = 0
    simp [pageOf, parsePos, hp]
  · show some (limitOf params) = some 100
    simp [limitOf, parsePos, hl]

/-- Witness for C7: with an empty parameter map the skip is 0 and the limit
is 100. -/
theorem paginate_skip_limit_witness :
    (shape [] []).query.skip = 0 ∧ (shape [] []).query.limitN = some 100 :=
  (paginate_skip_limit [] []).2.2.2.2 rfl rfl

/-- C8: malformed pagination input degrades to the defaults: `pageOf` and
`limitOf` are always at least 1, the natural-number skip agrees with the
integer computation `(page - 1) * limit` (so no negative skip is ever
produced or truncated), and a non-numeric or below-1 `page` (resp. `limit`)
parameter falls back to 1 (resp. 100). -/
theorem pagination_failsafe (params : ParamMap) :
    1 ≤ pageOf params ∧ 1 ≤ limitOf params
    ∧ ((pageOf params : Int) - 1) * (limitOf params : Int)
        = (((pageOf params - 1) * limitOf params : Nat) : Int)
    ∧ (∀ s, List.lookup "page" params = some (PValue.s s) → parseNat s = none →
        pageOf params = 1)
    ∧ (∀ s n, List.lookup "page" params = some (PValue.s s) → parseNat s = some n →
        n < 1 → pageOf params = 1)
    ∧ (∀ s, List.lookup "limit" params = some (PValue.s s) → parseNat s = none →
        limitOf params = 100)
    ∧ (∀ s n, List.lookup "limit" params = some (PValue.s s) → parseNat s = some n →
        n < 1 → limitOf params = 100) := by
  have hpage := one_le_pageOf params
  have hlim := one_le_limitOf params
  refine ⟨hpage, hlim, ?_, ?_, ?_, ?_, ?_⟩
  · have : ((pageOf params - 1 : Nat) : Int) = (pageOf params : Int) - 1 := by
      omega
    rw [Nat.cast_mul, this]
  · intro s hs hnone
    simp [pageOf, parsePos, hs, hnone]
  · intro s n hs hn hlt
    have : ¬ 1 ≤ n := by omega
    simp [pageOf, parsePos, hs, hn, this]
  · intro s hs hnone
    simp [limitOf, parsePos, hs, hnone]
  · intro s n hs hn hlt
    have : ¬ 1 ≤ n := by omega
    simp [limitOf, parsePos, hs, hn, this]

/-- Witness for C8: a non-numeric `page` and a below-1 `limit` both fall
back to their defaults. -/
theorem pagination_failsafe_witness :
    pageOf [("page", PValue.s "abc"), ("limit", PValue.s "0")] = 1
    ∧ limitOf [("page", PValue.s "abc"), ("limit", PValue.s "0")] = 100 :=
  ⟨(pagination_failsafe [("page", PValue.s "abc"), ("limit", PValue.s "0")]).2.2.2.1
      "abc" (by decide) (by decide),
   (pagination_failsafe [("page", PValue.s "abc"), ("limit", PValue.s "0")]).2.2.2.2.2.2
      "0" 0 (by decide) (by decide) (by decide)⟩

/-- C9: the Shaper never mutates the caller-supplied Parameter Map: after
all four stages run, the stored Parameter Map is the map given by the caller,
unchanged (the filter stage removes reserved keys from a copy only). -/
theorem shaper_preserves_param_map (conds0 : List (String × Cond)) (params : ParamMap) :
    (shape conds0 params).queryString = params
    ∧ ((APIFeatures.mk (Query.fresh conds0) params).filter).queryString = params := ⟨rfl, rfl⟩

/-! ### Evaluation lemmas for range operators on integer bounds -/

theorem matchOp_gte_none (b : Value) : matchOp "$gte" none b = false := rfl

theorem matchOp_gte_int_int (p b : Int) :
    matchOp "$gte" (some (Value.int p)) (Value.int b) = decide (b ≤ p) := rfl

theorem matchOp_gte_str_int (s : String) (b : Int) :
    matchOp "$gte" (some (Value.str s)) (Value.int b) = false := rfl

theorem matchOp_gte_bool_int (x : Bool) (b : Int) :
    matchOp "$gte" (some (Value.bool x)) (Value.int b) = false := rfl

theorem matchOp_lte_int_int (p b : Int) :
    matchOp "$lte" (some (Value.int p)) (Value.int b) = decide (p ≤ b) := rfl

/-- C4: the filter stage rewrites the comparison operators `gte`, `gt`,
`lte`, `lt` by attaching the `$` sigil and applies them as range
constraints — in particular `price[gte]=100&price[lte]=500` bounds the
`price` field of every returned record to `[100, 500]` — while values not
in operator form are applied as direct equality constraints. -/
theorem filter_operator_rewrite :
    (∀ (params : ParamMap) (k : String) (ops : List (String × String)),
      (k, PValue.m ops) ∈ params → k ∉ reservedKeys →
      (k, Cond.ops (sigilize ops)) ∈ filterConds params)
    ∧ sigilize [("gte", "100"), ("lte", "500")]
        = [("$gte", Value.int 100), ("$lte", Value.int 500)]
    ∧ (∀ (conds0 : List (String × Cond)) (db : List Record) (r : Record),
      r ∈ execQuery (shape conds0
          [("price", PValue.m [("gte", "100"), ("lte", "500")])]).query db →
      ∃ p : Int, lookupField r "price" = some (Value.int p) ∧ 100 ≤ p ∧ p ≤ 500)
    ∧ (∀ (conds0 : List (String × Cond)) (k v : String) (db : List Record) (r : Record),
      k ∉ reservedKeys → k ≠ bookkeepingField →
      r ∈ execQuery (shape conds0 [(k, PValue.s v)]).query db →
      lookupField r k = some (parseValue v)) := by
  refine ⟨?_, by decide, ?_, ?_⟩
  · intro params k ops hmem hres
    refine List.mem_map.mpr ⟨(k, PValue.m ops), ?_, rfl⟩
    exact List.mem_filter.mpr ⟨hmem, decide_eq_true hres⟩
  · intro conds0 db r hr
    obtain ⟨s, hs, hm, hp⟩ := mem_execQuery hr
    have hconds : (shape conds0
        [("price", PValue.m [("gte", "100"), ("lte", "500")])]).query.conds
        = conds0 ++ [("price", Cond.ops [("$gte", Value.int 100), ("$lte", Value.int 500)])] :=
      rfl
    rw [hconds] at hm
    simp only [matchesConds, List.all_append, Bool.and_eq_true, List.all_cons,
      List.all_nil, Bool.and_true, matchesCond] at hm
    obtain ⟨-, hg, hl⟩ := hm
    cases hv : lookupField s "price" with
    | none => rw [hv, matchOp_gte_none] at hg; exact absurd hg (by simp)
    | some v =>
      rw [hv] at hg hl
      cases v with
      | str s' => rw [matchOp_gte_str_int] at hg; exact absurd hg (by simp)
      | bool x => rw [matchOp_gte_bool_int] at hg; exact absurd hg (by simp)
      | int p =>
        rw [matchOp_gte_int_int] at hg
        rw [matchOp_lte_int_int] at hl
        refine ⟨p, ?_, of_decide_eq_true hg, of_decide_eq_true hl⟩
        have hsel : (shape conds0
            [("price", PValue.m [("gte", "100"), ("lte", "500")])]).query.fieldsSel
            = none := rfl
        rw [hp, hsel, lookupField_project_default s "price" (by decide), hv]
  · intro conds0 k v db r hres hbk hr
    obtain ⟨s, hs, hm, hp⟩ := mem_execQuery hr
    have hne : k ≠ "fields" := by
      intro h
      exact hres (h ▸ (by decide : ("fields" : String) ∈ reservedKeys))
    have hfc : filterConds [(k, PValue.s v)] = [(k, Cond.eqV (parseValue v))] := by
      unfold filterConds removeReserved
      rw [List.filter_cons, decide_eq_true hres]
      rfl
    have hconds : (shape conds0 [(k, PValue.s v)]).query.conds
        = conds0 ++ filterConds [(k, PValue.s v)] := rfl
    rw [hconds, hfc] at hm
    simp only [matchesConds, List.all_append, Bool.and_eq_true, List.all_cons,
      List.all_nil, Bool.and_true, matchesCond, decide_eq_true_eq] at hm
    obtain ⟨-, hm2⟩ := hm
    have hsel : (shape conds0 [(k, PValue.s v)]).query.fieldsSel
        = fieldsSelOf [(k, PValue.s v)] := rfl
    have hfsel : fieldsSelOf [(k, PValue.s v)] = none := by
      unfold fieldsSelOf
      rw [List.lookup_cons, beq_eq_false_iff_ne.mpr (fun h => hne h.symm)]
      rfl
    rw [hp, hsel, hfsel, lookupField_project_default s k hbk, hm2]

/-- Witness for C4: a record with price 200 passes the shaped
`price[gte]=100&price[lte]=500` query and its price lies in the interval;
a record with category `art` passes the shaped `category=art` equality
query and carries exactly that category value. -/
theorem filter_operator_rewrite_witness :
    (∃ p : Int, lookupField [("price", Value.int 200)] "price" = some (Value.int p)
      ∧ 100 ≤ p ∧ p ≤ 500)
    ∧ lookupField [("category", Value.str "art")] "category" = some (parseValue "art")
    ∧ ("price", Cond.ops (sigilize [("gte", "100")])) ∈
        filterConds [("price", PValue.m [("gte", "100")])] :=
  ⟨filter_operator_rewrite.2.2.1 [] [[("price", Value.int 200)]]
      [("price", Value.int 200)] (by decide),
   filter_operator_rewrite.2.2.2 [] "category" "art"
      [[("category", Value.str "art")]] [("category", Value.str "art")]
      (by decide) (by decide) (by decide),
   filter_operator_rewrite.1 [("price", PValue.m [("gte", "100")])] "price"
      [("gte", "100")] (by decide) (by decide)⟩

/-! ### Unfolding lemmas for the multi-key comparison -/

theorem sortLE_cons_desc (k : String) (rest : List (String × Bool)) (r1 r2 : Record) :
    sortLE ((k, true) :: rest) r1 r2 =
      if lookupField r2 k = lookupField r1 k then sortLE rest r1 r2
      else ovalLE (lookupField r2 k) (lookupField r1 k) := rfl

theorem sortLE_cons_asc (k : String) (rest : List (String × Bool)) (r1 r2 : Record) :
    sortLE ((k, false) :: rest) r1 r2 =
      if lookupField r1 k = lookupField r2 k then sortLE rest r1 r2
      else ovalLE (lookupField r1 k) (lookupField r2 k) := rfl

/-- C5: a present `sort` parameter is split on commas, a `-` marker means
descending and its absence ascending, keys apply in left-to-right priority
— so for `sort=-price,name` the returned records are ordered by descending
price with ties broken by ascending name — and an absent `sort` parameter
yields the stable default sort by creation time descending. -/
theorem sort_stage_correct :
    (∀ params : ParamMap, List.lookup "sort" params = none →
      sortKeysOf params = [("createdAt", true)])
    ∧ sortKeysOf [("sort", PValue.s "-price,name")] = [("price", true), ("name", false)]
    ∧ (∀ (conds0 : List (String × Cond)) (params : ParamMap) (db : List Record),
      List.lookup "sort" params = some (PValue.s "-price,name") →
      List.lookup "fields" params = none →
      (execQuery (shape conds0 params).query db).Pairwise fun r1 r2 =>
        ovalLE (lookupField r2 "price") (lookupField r1 "price") = true
        ∧ (lookupField r1 "price" = lookupField r2 "price" →
            ovalLE (lookupField r1 "name") (lookupField r2 "name") = true))
    ∧ (∀ (conds0 : List (String × Cond)) (params : ParamMap) (db : List Record),
      List.lookup "sort" params = none → List.lookup "fields" params = none →
      (execQuery (shape conds0 params).query db).Pairwise fun r1 r2 =>
        ovalLE (lookupField r2 "createdAt") (lookupField r1 "createdAt") = true) := by
  have hdefault : ∀ params : ParamMap, List.lookup "sort" params = none →
      sortKeysOf params = [("createdAt", true)] := by
    intro params h
    unfold sortKeysOf
    rw [h]
  refine ⟨hdefault, by decide, ?_, ?_⟩
  · intro conds0 params db hs hf
    have hkeys : (shape conds0 params).query.sortKeys = [("price", true), ("name", false)] := by
      show sortKeysOf params = _
      unfold sortKeysOf
      rw [hs]
      decide
    have hsel : (shape conds0 params).query.fieldsSel = none := by
      show fieldsSelOf params = none
      unfold fieldsSelOf
      rw [hf]
    apply pairwise_execQuery
    intro x y hxy
    rw [hkeys, sortLE_cons_desc] at hxy
    rw [hsel, lookupField_project_default x "price" (by decide),
        lookupField_project_default y "price" (by decide),
        lookupField_project_default x "name" (by decide),
        lookupField_project_default y "name" (by decide)]
    constructor
    · by_cases hp : lookupField y "price" = lookupField x "price"
      · exact hp ▸ ovalLE_refl _
      · rw [if_neg hp] at hxy
        exact hxy
    · intro heq
      rw [if_pos heq.symm, sortLE_cons_asc] at hxy
      by_cases hn : lookupField x "name" = lookupField y "name"
      · exact hn ▸ ovalLE_refl _
      · rw [if_neg hn] at hxy
        exact hxy
  · intro conds0 params db hs hf
    have hkeys : (shape conds0 params).query.sortKeys = [("createdAt", true)] :=
      hdefault params hs
    have hsel : (shape conds0 params).query.fieldsSel = none := by
      show fieldsSelOf params = none
      unfold fieldsSelOf
      rw [hf]
    apply pairwise_execQuery
    intro x y hxy
    rw [hkeys, sortLE_cons_desc] at hxy
    rw [hsel, lookupField_project_default x "createdAt" (by decide),
        lookupField_project_default y "createdAt" (by decide)]
    by_cases hc : lookupField y "createdAt" = lookupField x "createdAt"
    · exact hc ▸ ovalLE_refl _
    · rw [if_neg hc] at hxy
      exact hxy

/-- Witness for C5: the shaped `sort=-price,name` query on a two-record
store returns a list ordered by descending price with ascending-name tie
break, and an empty parameter map yields the default creation-time sort
keys. -/
theorem sort_stage_correct_witness :
    (execQuery (shape [] [("sort", PValue.s "-price,name")]).query
        [[("price", Value.int 1)], [("price", Value.int 2)]]).Pairwise
      (fun r1 r2 =>
        ovalLE (lookupField r2 "price") (lookupField r1 "price") = true
        ∧ (lookupField r1 "price" = lookupField r2 "price" →
            ovalLE (lookupField r1 "name") (lookupField r2 "name") = true))
    ∧ sortKeysOf [] = [("createdAt", true)] :=
  ⟨sort_stage_correct.2.2.1 [] [("sort", PValue.s "-price,name")]
      [[("price", Value.int 1)], [("price", Value.int 2)]] rfl rfl,
   sort_stage_correct.1 [] rfl⟩

/-- C6: with `fields=name,price` the projection restricts every returned
record to the selected fields plus the identity field — on a record
carrying all of them the result holds exactly `id`, `name` and `price` —
and with `fields` absent the internal bookkeeping field is excluded from
every returned record. -/
theorem field_selection_correct :
    (∀ (conds0 : List (String × Cond)) (params : ParamMap) (db : List Record)
        (r : Record) (k : String),
      List.lookup "fields" params = some (PValue.s "name,price") →
      r ∈ execQuery (shape conds0 params).query db →
      k ∈ r.map Prod.fst → k = "name" ∨ k = "price" ∨ k = "id")
    ∧ execQuery (shape [] [("fields", PValue.s "name,price")]).query
        [[("id", Value.str "a"), ("name", Value.str "n"), ("price", Value.int 3),
          ("description", Value.str "d"), ("__v", Value.int 0)]]
        = [[("id", Value.str "a"), ("name", Value.str "n"), ("price", Value.int 3)]]
    ∧ (∀ (conds0 : List (String × Cond)) (params : ParamMap) (db : List Record)
        (r : Record),
      List.lookup "fields" params = none →
      r ∈ execQuery (shape conds0 params).query db →
      ¬ "__v" ∈ r.map Prod.fst) := by
  refine ⟨?_, by decide, ?_⟩
  · intro conds0 params db r k hf hr hk
    obtain ⟨s, -, -, hp⟩ := mem_execQuery hr
    have hsel : (shape conds0 params).query.fieldsSel = some ["name", "price"] := by
      show fieldsSelOf params = _
      unfold fieldsSelOf
      rw [hf]
      decide
    rw [hp, hsel] at hk
    simp only [projectRecord] at hk
    obtain ⟨kv, hkv, hke⟩ := List.mem_map.mp hk
    obtain ⟨-, hpred⟩ := List.mem_filter.mp hkv
    rw [← hke]
    simpa [identityField, or_assoc] using hpred
  · intro conds0 params db r hf hr hk
    obtain ⟨s, -, -, hp⟩ := mem_execQuery hr
    have hsel : (shape conds0 params).query.fieldsSel = none := by
      show fieldsSelOf params = none
      unfold fieldsSelOf
      rw [hf]
    rw [hp, hsel] at hk
    simp only [projectRecord] at hk
    obtain ⟨kv, hkv, hke⟩ := List.mem_map.mp hk
    obtain ⟨-, hpred⟩ := List.mem_filter.mp hkv
    rw [hke] at hpred
    simp [bookkeepingField] at hpred

/-- Witness for C6: on a concrete record the selected projection keeps only
`name`, `price` and the identity field, and the default projection hides
the bookkeeping field. -/
theorem field_selection_correct_witness :
    ("name" = "name" ∨ "name" = "price" ∨ "name" = "id")
    ∧ ¬ "__v" ∈ ([("id", Value.str "a"), ("name", Value.str "n")] : Record).map Prod.fst :=
  ⟨field_selection_correct.1 [] [("fields", PValue.s "name,price")]
      [[("name", Value.str "n"), ("price", Value.int 3)]]
      [("name", Value.str "n"), ("price", Value.int 3)] "name"
      (by decide) (by decide) (by decide),
   field_selection_correct.2.2 [] []
      [[("id", Value.str "a"), ("name", Value.str "n"), ("__v", Value.int 0)]]
      [("id", Value.str "a"), ("name", Value.str "n")] rfl (by decide)⟩

/-! ### Evaluation lemma for the `$ne` operator -/

theorem matchOp_ne (fv : Option Value) (b : Value) :
    matchOp "$ne" fv b = decide (fv ≠ some b) := rfl

/-- C10: every find query whose conditions set neither `showAll` nor
`isSecret` is augmented by the pre-find middleware with the constraint
`isSecret: { $ne: true }`, and every aggregation pipeline has a match
excluding status `deleted` and `isSecret` true placed at its front, so
secret NFT records never appear in the results of such find queries nor
among the records entering an aggregation pipeline. -/
theorem secret_nft_exclusion :
    (∀ conds : List (String × Cond), List.lookup "showAll" conds = none →
      List.lookup "isSecret" conds = none →
      findHook conds = conds ++ [("isSecret", Cond.ops [("$ne", Value.bool true)])])
    ∧ (∀ (conds : List (String × Cond)) (db : List Record) (r : Record),
      List.lookup "showAll" conds = none → List.lookup "isSecret" conds = none →
      r ∈ runFind (findHook conds) db →
      lookupField r "isSecret" ≠ some (Value.bool true))
    ∧ (∀ p : List Stage, aggregateHook p = Stage.matchS secretExclusionMatch :: p)
    ∧ (∀ (p : List Stage) (db : List Record) (r : Record),
      r ∈ pipelineSource (aggregateHook p) db →
      lookupField r "isSecret" ≠ some (Value.bool true)
      ∧ lookupField r "status" ≠ some (Value.str "deleted")) := by
  have hhook : ∀ conds : List (String × Cond), List.lookup "showAll" conds = none →
      List.lookup "isSecret" conds = none →
      findHook conds = conds ++ [("isSecret", Cond.ops [("$ne", Value.bool true)])] := by
    intro conds h1 h2
    unfold findHook condsTruthyAt
    rw [h1, h2]
    rfl
  refine ⟨hhook, ?_, fun _ => rfl, ?_⟩
  · intro conds db r h1 h2 hr
    rw [runFind, hhook conds h1 h2] at hr
    obtain ⟨-, hm⟩ := List.mem_filter.mp hr
    simp only [matchesConds, List.all_append, Bool.and_eq_true, List.all_cons,
      List.all_nil, Bool.and_true, matchesCond, matchOp_ne, decide_eq_true_eq] at hm
    exact hm.2
  · intro p db r hr
    have hsrc : pipelineSource (aggregateHook p) db
        = db.filter (matchesConds secretExclusionMatch) := rfl
    rw [hsrc] at hr
    obtain ⟨-, hm⟩ := List.mem_filter.mp hr
    simp only [secretExclusionMatch, matchesConds, List.all_cons, List.all_nil,
      Bool.and_true, Bool.and_eq_true, matchesCond, matchOp_ne, decide_eq_true_eq] at hm
    exact ⟨hm.2, hm.1⟩

/-- Witness for C10: a listed, non-secret record passes the augmented find
query, and a record entering the aggregation pipeline is neither secret nor
deleted. -/
theorem secret_nft_exclusion_witness :
    lookupField [("status", Value.str "listed"), ("isSecret", Value.bool false)]
        "isSecret" ≠ some (Value.bool true)
    ∧ (lookupField [("name", Value.str "a")] "isSecret" ≠ some (Value.bool true)
       ∧ lookupField [("name", Value.str "a")] "status" ≠ some (Value.str "deleted")) :=
  ⟨secret_nft_exclusion.2.1 [("status", Cond.eqV (Value.str "listed"))]
      [[("status", Value.str "listed"), ("isSecret", Value.bool false)]]
      [("status", Value.str "listed"), ("isSecret", Value.bool false)]
      rfl rfl (by decide),
   secret_nft_exclusion.2.2.2 [Stage.groupS "category"]
      [[("name", Value.str "a")]] [("name", Value.str "a")] (by decide)⟩

end ImgSpec
